import Mathlib

/-!
Verification of the ABAP remediation service (two endpoints):
the obsolete MB-transaction rule of `app/main.py` and the VBRK/VBRP
SELECT rule of `app/main1.py`.

Texts are modelled as `List Char`.  Python regular expressions are
embedded as specialised backtracking parsers that follow the ordered
alternation / greedy / lazy semantics of the `re` module on the
character ranges the program handles (ASCII plus the Greek letters
that occur in the obsolete-transaction list).
-/

namespace Remediation

/-- Single-quote character, used to build strings that contain quotes. -/
def sq : Char := '\''

/-- Double-quote character. -/
def dq : Char := '"'

/-- Whitespace class of the regex `\s` (ASCII range). -/
def isSpaceChar (c : Char) : Bool :=
  c = ' ' || c = '\t' || c = '\n' || c = '\r' || c = '\x0b' || c = '\x0c'

/-- Word-character class of the regex `\w` (ASCII range). -/
def isWordChar (c : Char) : Bool :=
  c.isAlpha || c.isDigit || c = '_'

/-- Character class of the SELECT field list: `[\w\s,*]`. -/
def isFieldChar (c : Char) : Bool :=
  isWordChar c || isSpaceChar c || c = ',' || c = '*'

/-- Character class of the destination variable: `[\w@()\->]`. -/
def isVarChar (c : Char) : Bool :=
  isWordChar c || c = '@' || c = '(' || c = ')' || c = '-' || c = '>'

/-- Upper-casing of one character, modelling Python `str.upper` on the
characters the program handles: ASCII letters plus the Greek lowercase
letters of the obsolete-transaction list. -/
def upperChar (c : Char) : Char :=
  if c = 'a' then 'A' else if c = 'b' then 'B' else if c = 'c' then 'C'
  else if c = 'd' then 'D' else if c = 'e' then 'E' else if c = 'f' then 'F'
  else if c = 'g' then 'G' else if c = 'h' then 'H' else if c = 'i' then 'I'
  else if c = 'j' then 'J' else if c = 'k' then 'K' else if c = 'l' then 'L'
  else if c = 'm' then 'M' else if c = 'n' then 'N' else if c = 'o' then 'O'
  else if c = 'p' then 'P' else if c = 'q' then 'Q' else if c = 'r' then 'R'
  else if c = 's' then 'S' else if c = 't' then 'T' else if c = 'u' then 'U'
  else if c = 'v' then 'V' else if c = 'w' then 'W' else if c = 'x' then 'X'
  else if c = 'y' then 'Y' else if c = 'z' then 'Z'
  else if c = 'μ' then 'Μ' else if c = 'β' then 'Β'
  else if c = 'θ' then 'Θ' else if c = 'α' then 'Α'
  else c

/-- Upper-casing of a text (Python `str.upper`). -/
def upperL (l : List Char) : List Char := l.map upperChar

/-- Case-insensitive character comparison used by `re.IGNORECASE`. -/
def ciEq (a b : Char) : Bool := upperChar a = upperChar b

/-- Case-insensitive literal parser: on success returns the consumed
text in its original casing together with the remaining suffix. -/
def pLit : List Char → List Char → Option (List Char × List Char)
  | [], s => some ([], s)
  | _ :: _, [] => none
  | l :: ls, c :: cs =>
    if ciEq l c then
      match pLit ls cs with
      | some (con, r) => some (c :: con, r)
      | none => none
    else none

/-- Maximal run of characters satisfying `p` (greedy `p*`):
returns the run and the remaining suffix. -/
def takeRun (p : Char → Bool) : List Char → (List Char × List Char)
  | [] => ([], [])
  | c :: cs =>
    if p c then
      let (a, b) := takeRun p cs
      (c :: a, b)
    else ([], c :: cs)

/-- Greedy `p+`: like `takeRun` but fails on the empty run. -/
def pRun1 (p : Char → Bool) (s : List Char) : Option (List Char × List Char) :=
  match takeRun p s with
  | ([], _) => none
  | (a, b) => some (a, b)

/-- Substring of `txt` at the half-open span `[a, b)`
(Python `txt[a:b]` for `0 ≤ a ≤ b`). -/
def extract (txt : List Char) (a b : Nat) : List Char :=
  (txt.drop a).take (b - a)

/-! ### The obsolete-transaction rule of `app/main.py` -/

/-- The list `OBSOLETE_MB_TXNS` of `app/main.py` (the sixth entry is
spelled with Greek capital letters in the source). -/
def OBSOLETE_MB_TXNS : List (List Char) :=
  ["MB01".toList, "MB02".toList, "MB03".toList, "MB04".toList, "MB05".toList,
   "ΜΒΘΑ".toList, "MB11".toList, "MB1A".toList, "MB18".toList, "MBC".toList,
   "MB31".toList, "MBNL".toList, "MBRL".toList, "MBSF".toList, "MBSL".toList,
   "MBST".toList, "MBSU".toList]

/-- The verb alternation `(?P<stmt>CALL\s+TRANSACTION|SUBMIT)`:
ordered choice, case-insensitive, capturing the original casing.
Whenever the first alternative fails, the second is attempted at the
same position. -/
def pVerb (s : List Char) : Option (List Char × List Char) :=
  match pLit "CALL".toList s with
  | some (c1, s1) =>
    match pRun1 isSpaceChar s1 with
    | some (c2, s2) =>
      match pLit "TRANSACTION".toList s2 with
      | some (c3, s3) => some (c1 ++ c2 ++ c3, s3)
      | none => pLit "SUBMIT".toList s
    | none => pLit "SUBMIT".toList s
  | none => pLit "SUBMIT".toList s

/-- The transaction-code alternation: ordered choice over the
enumerated obsolete codes. -/
def pTxnCode : List (List Char) → List Char → Option (List Char × List Char)
  | [], _ => none
  | code :: rest, s =>
    match pLit code s with
    | some p => some p
    | none => pTxnCode rest s

/-- The optional opening quote followed by the code:
`['"]?(?P<txn>...)`.  The greedy optional quote is consumed when
present, and the engine backtracks to the empty alternative when no
code follows the quote. -/
def pQuoteCode : List Char → Option (List Char × List Char × List Char)
  | [] => none
  | c :: cs =>
    if c = sq || c = dq then
      match pTxnCode OBSOLETE_MB_TXNS cs with
      | some (txn, r) => some ([c], txn, r)
      | none =>
        match pTxnCode OBSOLETE_MB_TXNS (c :: cs) with
        | some (txn, r) => some ([], txn, r)
        | none => none
    else
      match pTxnCode OBSOLETE_MB_TXNS (c :: cs) with
      | some (txn, r) => some ([], txn, r)
      | none => none

/-- Optional closing quote `['"]?`: greedy, and committed because the
remaining pattern `\s*\.?` always succeeds. -/
def takeOptQuote : List Char → (List Char × List Char)
  | [] => ([], [])
  | c :: cs => if c = sq || c = dq then ([c], cs) else ([], c :: cs)

/-- Optional terminator `\.?`: greedy, committed. -/
def takeOptDot : List Char → (List Char × List Char)
  | '.' :: cs => (['.'], cs)
  | s => ([], s)

/-- One entry of the list built by `find_mb_txn_usage`. -/
structure TxnUsage where
  full : List Char
  stmt : List Char
  txn : List Char
  suggested_statement : List Char
  spanStart : Nat
  spanEnd : Nat
deriving DecidableEq, Repr

/-- `suggest_replacement` of `app/main.py`. -/
def suggest_replacement (stmt : List Char) : List Char :=
  if "SUBMIT".toList.isPrefixOf (upperL stmt) then
    "SUBMIT MIGO.".toList
  else
    "CALL TRANSACTION ".toList ++ [sq] ++ "MIGO".toList ++ [sq, '.']

/-- Attempt of `MB_TXN_RE` at position `i` of `txt`. -/
def matchTxnAt (txt : List Char) (i : Nat) : Option TxnUsage :=
  let s := txt.drop i
  match pVerb s with
  | none => none
  | some (stmt, s1) =>
    match pRun1 isSpaceChar s1 with
    | none => none
    | some (w1, s2) =>
      match pQuoteCode s2 with
      | none => none
      | some (q1, txn, s3) =>
        let (q2, s4) := takeOptQuote s3
        let (w2, s5) := takeRun isSpaceChar s4
        let (d, _s6) := takeOptDot s5
        let full := stmt ++ w1 ++ q1 ++ txn ++ q2 ++ w2 ++ d
        some { full := full, stmt := stmt, txn := txn,
               suggested_statement := suggest_replacement stmt,
               spanStart := i, spanEnd := i + full.length }

/-- `re.finditer` scan shared by both rules: leftmost matches,
resuming after each match (all matches of both patterns are
non-empty, so the scan resumes at the match's end). -/
def finditer {μ : Type} (matchAt : Nat → Option μ) (endOf : μ → Nat) (bound : Nat) :
    Nat → Nat → List μ
  | 0, _ => []
  | fuel + 1, pos =>
    if pos > bound then []
    else
      match matchAt pos with
      | some m => m :: finditer matchAt endOf bound fuel (max (endOf m) (pos + 1))
      | none => finditer matchAt endOf bound fuel (pos + 1)

/-- `find_mb_txn_usage` of `app/main.py`. -/
def find_mb_txn_usage (txt : List Char) : List TxnUsage :=
  finditer (matchTxnAt txt) (fun m => m.spanEnd) txt.length (txt.length + 2) 0

/-! ### The SELECT rule of `app/main1.py`

`SELECT_RE` is
`(?P<full>SELECT\s+(?:SINGLE\s+)?(?P<fields>[\w\s,*]+)\s+FROM\s+(?P<table>\w+)`
`(?P<middle>.*?)(?:INTO\s+TABLE\s+(?P<into_tab>[\w@()\->]+)|INTO\s+(?P<into_wa>[\w@()\->]+))`
`(?P<tail>.*?))\.` with IGNORECASE, DOTALL and VERBOSE.

The region `\s+(?:SINGLE\s+)?(?P<fields>[\w\s,*]+)` is embedded as a
single sweep over the possible end positions of the field list, tried
from the longest down (everything `SINGLE` and the separators may
consume also lies in the `fields` class, and no group of this region
is used by the program, so the sweep reproduces the engine's
backtracking order of reachable continuations exactly). -/

/-- Parse result of the part of `SELECT_RE` that follows the field
list: `pre` is the consumed text up to (excluding) the terminating
period, `rest` the suffix after the period. -/
structure SelParts where
  pre : List Char
  table : List Char
  ttype : List Char
  tname : List Char
  rest : List Char
deriving DecidableEq, Repr

/-- The lazy tail and terminator `(?P<tail>.*?)\.`: the tail stops at
the first period (DOTALL), which is then consumed. -/
def pDotTail (s : List Char) : Option (List Char × List Char) :=
  match takeRun (fun c => c ≠ '.') s with
  | (t, c :: r) => if c = '.' then some (t, r) else none
  | (_, []) => none

/-- First destination alternative `INTO\s+TABLE\s+(?P<into_tab>...)`
followed by the tail and terminator. -/
def pIntoTab (s : List Char) : Option (List Char × List Char × List Char × List Char) :=
  match pLit "INTO".toList s with
  | none => none
  | some (c1, s1) =>
    match pRun1 isSpaceChar s1 with
    | none => none
    | some (c2, s2) =>
      match pLit "TABLE".toList s2 with
      | none => none
      | some (c3, s3) =>
        match pRun1 isSpaceChar s3 with
        | none => none
        | some (c4, s4) =>
          match pRun1 isVarChar s4 with
          | none => none
          | some (v, s5) =>
            match pDotTail s5 with
            | none => none
            | some (tl, s6) => some (c1 ++ c2 ++ c3 ++ c4 ++ v ++ tl, "itab".toList, v, s6)

/-- Second destination alternative `INTO\s+(?P<into_wa>...)` followed
by the tail and terminator. -/
def pIntoWa (s : List Char) : Option (List Char × List Char × List Char × List Char) :=
  match pLit "INTO".toList s with
  | none => none
  | some (c1, s1) =>
    match pRun1 isSpaceChar s1 with
    | none => none
    | some (c2, s2) =>
      match pRun1 isVarChar s2 with
      | none => none
      | some (v, s3) =>
        match pDotTail s3 with
        | none => none
        | some (tl, s4) => some (c1 ++ c2 ++ v ++ tl, "wa".toList, v, s4)

/-- The destination alternation followed by the tail and terminator:
ordered choice between the two alternatives (when the first fails,
also during its continuation, the second is attempted).  Returns
(consumed text before the period, target type, variable, suffix after
the period). -/
def pInto (s : List Char) : Option (List Char × List Char × List Char × List Char) :=
  match pIntoTab s with
  | some p => some p
  | none => pIntoWa s

/-- The empty-middle attempt: the destination parsed at the current
position. -/
def pMiddleIntoStep (s : List Char) : Option (List Char × List Char × List Char × List Char × List Char) :=
  match pInto s with
  | some (con, tt, tn, r) => some ([], con, tt, tn, r)
  | none => none

/-- The lazy middle `(?P<middle>.*?)` followed by the destination:
shortest middle first (DOTALL: any character may be absorbed). -/
def pMiddleInto : Nat → List Char → Option (List Char × List Char × List Char × List Char × List Char)
  | 0, s => pMiddleIntoStep s
  | fuel + 1, s =>
    match pMiddleIntoStep s with
    | some q => some q
    | none =>
      match s with
      | [] => none
      | c :: cs =>
        match pMiddleInto fuel cs with
        | some (mid, con, tt, tn, r) => some (c :: mid, con, tt, tn, r)
        | none => none

/-- The greedy table name `(?P<table>\w+)`: lengths tried from `k`
down to 1 (the engine backtracks from the maximal word run). -/
def tryTable (s4 : List Char) : Nat → Option SelParts
  | 0 => none
  | k + 1 =>
    let tbl := s4.take (k + 1)
    let sT := s4.drop (k + 1)
    match pMiddleInto sT.length sT with
    | some (mid, con, tt, tn, r) =>
      some { pre := tbl ++ mid ++ con, table := tbl, ttype := tt, tname := tn, rest := r }
    | none => tryTable s4 k

/-- The continuation after the field list: `\s+FROM\s+` then the
table, middle, destination, tail and terminator. -/
def pAfterFields (sF : List Char) : Option SelParts :=
  match pRun1 isSpaceChar sF with
  | none => none
  | some (wA, s2) =>
    match pLit "FROM".toList s2 with
    | none => none
    | some (cF, s3) =>
      match pRun1 isSpaceChar s3 with
      | none => none
      | some (wB, s4) =>
        match takeRun isWordChar s4 with
        | ([], _) => none
        | (run, _) =>
          match tryTable s4 run.length with
          | some parts => some { parts with pre := wA ++ cF ++ wB ++ parts.pre }
          | none => none

/-- The sweep over the end of the field-list region, longest first:
`k` is the number of characters after the first separator character
that the region still consumes. -/
def tryFields (rest0 : List Char) : Nat → Option (Nat × SelParts)
  | 0 => none
  | k + 1 =>
    match pAfterFields (rest0.drop (k + 1)) with
    | some parts => some (k + 1, parts)
    | none => tryFields rest0 k

/-- One entry of the list built by `find_selects`. -/
structure SelMatch where
  text : List Char
  table : List Char
  target_type : List Char
  target_name : List Char
  spanStart : Nat
  spanEnd : Nat
deriving DecidableEq, Repr

/-- Attempt of `SELECT_RE` at position `i` of `txt`.  The group
`full` excludes the terminating period; `span(0)` includes it. -/
def matchSelAt (txt : List Char) (i : Nat) : Option SelMatch :=
  let s := txt.drop i
  match pLit "SELECT".toList s with
  | none => none
  | some (c0, s1) =>
    match s1 with
    | [] => none
    | w0 :: rest0 =>
      if isSpaceChar w0 then
        let run := takeRun isFieldChar rest0
        match tryFields rest0 run.1.length with
        | some (k, parts) =>
          let text := c0 ++ w0 :: rest0.take k ++ parts.pre
          some { text := text, table := parts.table,
                 target_type := parts.ttype, target_name := parts.tname,
                 spanStart := i, spanEnd := i + text.length + 1 }
        | none => none
      else none

/-- `find_selects` of `app/main1.py`. -/
def find_selects (txt : List Char) : List SelMatch :=
  finditer (matchSelAt txt) (fun m => m.spanEnd) txt.length (txt.length + 2) 0

/-! ### `ensure_draft_filter` and `build_replacement_stmt` -/

/-- Attempt of the pattern `{table_up}-DRAFT\s*=\s*['\"]?\s?['\"]?` at
the start of `s` (IGNORECASE).  Everything after the `=` is optional,
so the attempt succeeds exactly when the literal, optional whitespace
and an equals sign are present. -/
def draftAt (pat s : List Char) : Bool :=
  match pLit pat s with
  | some (_, r) =>
    match (takeRun isSpaceChar r).2 with
    | '=' :: _ => true
    | _ => false
  | none => false

/-- `re.search` of the DRAFT pattern: first position wins; only
existence is observable.  `pat` is `table_up ++ "-DRAFT"`, which is
never empty, so the empty suffix cannot match. -/
def searchDraft (pat : List Char) : List Char → Bool
  | [] => false
  | c :: cs => draftAt pat (c :: cs) || searchDraft pat cs

/-- Attempt of `\bWHERE\b` at the start of `s`, where `prev` is the
character before `s` (`none` at the start of the text). -/
def whereAt (lit : List Char) (prev : Option Char) (s : List Char) : Bool :=
  (match prev with
   | none => true
   | some c => !(isWordChar c)) &&
  (match pLit lit s with
   | some (_, r) =>
     match r with
     | [] => true
     | c :: _ => !(isWordChar c)
   | none => false)

/-- `re.search(r"\bWHERE\b", ...)` returning `m.end()`:
the scan position `i` is the offset of `s` inside the full text. -/
def firstWordEnd (lit : List Char) (prev : Option Char) (s : List Char) (i : Nat) : Option Nat :=
  if whereAt lit prev s then some (i + lit.length)
  else
    match s with
    | [] => none
    | c :: cs => firstWordEnd lit (some c) cs (i + 1)

/-- End offset of the first `\bWHERE\b` occurrence. -/
def firstWhereEnd (s : List Char) : Option Nat :=
  firstWordEnd "WHERE".toList none s 0

/-- Start offset of the first `\bINTO\b` occurrence
(`m.start()` is `m.end()` minus the literal's length). -/
def firstIntoStart (s : List Char) : Option Nat :=
  (firstWordEnd "INTO".toList none s 0).map (fun e => e - 4)

/-- Python `str.rstrip(".")`: remove all trailing period characters. -/
def rstripDots (l : List Char) : List Char :=
  (l.reverse.dropWhile (fun c => c = '.')).reverse

/-- `ensure_draft_filter` of `app/main1.py`. -/
def ensure_draft_filter (sel_stmt : List Char) (table : List Char) : List Char :=
  let table_up := upperL table
  if table_up = "VBRK".toList ∨ table_up = "VBRP".toList then
    if searchDraft (table_up ++ "-DRAFT".toList) sel_stmt then sel_stmt
    else
      match firstWhereEnd sel_stmt with
      | some e =>
        sel_stmt.take e ++ (' ' :: (table_up ++ "-DRAFT = SPACE AND".toList)) ++ sel_stmt.drop e
      | none =>
        match firstIntoStart sel_stmt with
        | some j =>
          sel_stmt.take j ++ (" WHERE ".toList ++ table_up ++ "-DRAFT = SPACE ".toList) ++ sel_stmt.drop j
        | none =>
          rstripDots sel_stmt ++ (" WHERE ".toList ++ table_up ++ "-DRAFT = SPACE.".toList)
  else sel_stmt

/-- Worker of `subWs`: the flag records whether the previous input
character was whitespace (in which case the run's single space has
already been emitted). -/
def subWsAux : Bool → List Char → List Char
  | _, [] => []
  | prevWs, c :: cs =>
    if isSpaceChar c then
      if prevWs then subWsAux true cs else ' ' :: subWsAux true cs
    else c :: subWsAux false cs

/-- `re.sub(r"\s+", " ", ...)`: replace every maximal whitespace run
by a single space. -/
def subWs (l : List Char) : List Char := subWsAux false l

/-- Python `str.strip()`: remove leading and trailing whitespace. -/
def stripWs (l : List Char) : List Char :=
  ((l.dropWhile isSpaceChar).reverse.dropWhile isSpaceChar).reverse

/-- No two adjacent whitespace characters (the shape of
whitespace-normalized text). -/
def noAdjWs : List Char → Bool
  | a :: b :: t => (!(isSpaceChar a && isSpaceChar b)) && noAdjWs (b :: t)
  | _ => true

/-- `build_replacement_stmt` of `app/main1.py` (the `target_type` and
`target_name` parameters of the source are unused there and omitted). -/
def build_replacement_stmt (sel_text : List Char) (table : List Char) : List Char :=
  stripWs (subWs (ensure_draft_filter sel_text table))

/-! ### The two endpoints -/

/-- The pydantic `Unit` model shared by both endpoints. -/
structure Unit where
  pgm_name : List Char
  inc_name : List Char
  utype : List Char
  name : Option (List Char) := none
  class_implementation : Option (List Char) := none
  start_line : Option Int := none
  end_line : Option Int := none
  code : Option (List Char) := some []
deriving DecidableEq, Repr

/-- One metadata entry of the `mb_txn_usage` output list. -/
structure MbRecord where
  table : List Char
  target_type : List Char
  target_name : List Char
  used_fields : List (List Char)
  ambiguous : Bool
  obsolete_mb_txn : List Char
  obsolete_txn : List Char
  start_char_in_unit : Nat
  end_char_in_unit : Nat
  suggested_statement : List Char
  suggested_fields : Option (List Char)
  note : List Char
deriving DecidableEq, Repr

/-- The metadata dictionary built for one transaction match. -/
def mkMbRecord (m : TxnUsage) : MbRecord :=
  { table := "None".toList, target_type := "None".toList, target_name := "None".toList,
    used_fields := [], ambiguous := false,
    obsolete_mb_txn := m.txn, obsolete_txn := m.txn,
    start_char_in_unit := m.spanStart, end_char_in_unit := m.spanEnd,
    suggested_statement := m.suggested_statement, suggested_fields := none,
    note := "Replace obsolete MB transaction with MIGO per SAP Note 1804812.".toList }

/-- The `mb_txn_usage` list computed for one unit's code. -/
def mbMetadata (src : List Char) : List MbRecord :=
  (find_mb_txn_usage src).map mkMbRecord

/-- One output element of `/remediate-mb-txns`: the unit's original
fields plus the single additional field `mb_txn_usage`. -/
structure MbOutput where
  unit : Unit
  mb_txn_usage : List MbRecord
deriving DecidableEq, Repr

/-- `remediate_mb_txns` of `app/main.py` (the loop appends one output
object per unit; the commented-out rewrite of the code is absent from
the source). -/
def remediate_mb_txns (units : List Unit) : List MbOutput :=
  units.foldl (fun results u => results ++ [⟨u, mbMetadata (u.code.getD [])⟩]) []

/-- One metadata entry of the `selects` output list. -/
structure SelRecord where
  table : List Char
  target_type : List Char
  target_name : List Char
  start_char_in_unit : Nat
  end_char_in_unit : Nat
  used_fields : List (List Char)
  ambiguous : Bool
  suggested_fields : Option (List Char)
  suggested_statement : Option (List Char)
deriving DecidableEq, Repr

/-- Watch-list test of `remediate_array`:
`sel["table"].upper() in ("VBRK", "VBRP")`. -/
def inWatchList (tbl : List Char) : Bool :=
  upperL tbl = "VBRK".toList || upperL tbl = "VBRP".toList

/-- The `sel_info` dictionary built for one qualifying SELECT match:
`suggested_statement` stays `None` exactly when the built replacement
equals the raw matched text. -/
def mkSelInfo (sel : SelMatch) : SelRecord :=
  let new_stmt := build_replacement_stmt sel.text sel.table
  { table := sel.table, target_type := sel.target_type, target_name := sel.target_name,
    start_char_in_unit := sel.spanStart, end_char_in_unit := sel.spanEnd,
    used_fields := [], ambiguous := false, suggested_fields := none,
    suggested_statement := if new_stmt = sel.text then none else some new_stmt }

/-- The `selects` list computed for one unit's code. -/
def selMetadata (src : List Char) : List SelRecord :=
  ((find_selects src).filter (fun sel => inWatchList sel.table)).map mkSelInfo

/-- One output element of `/remediate-array`: the unit's original
fields plus the single additional field `selects`. -/
structure SelOutput where
  unit : Unit
  selects : List SelRecord
deriving DecidableEq, Repr

/-- `remediate_array` of `app/main1.py` (the internally applied span
replacement is computed and discarded by the source; being pure it has
no observable effect and is omitted here). -/
def remediate_array (units : List Unit) : List SelOutput :=
  units.foldl (fun results u => results ++ [⟨u, selMetadata (u.code.getD [])⟩]) []

/-! ### `apply_span_replacements` -/

/-- One splice `out[:s] + r + out[e:]`. -/
def splice (out : List Char) (s e : Nat) (r : List Char) : List Char :=
  out.take s ++ r ++ out.drop e

/-- Stable insertion into a list sorted descending by span start. -/
def insDesc (x : (Nat × Nat) × List Char) : List ((Nat × Nat) × List Char) → List ((Nat × Nat) × List Char)
  | [] => [x]
  | y :: ys => if y.1.1 ≤ x.1.1 then x :: y :: ys else y :: insDesc x ys

/-- Python `sorted(repls, key=lambda x: x[0][0], reverse=True)`:
a stable sort, descending by span start. -/
def pySortDesc (repls : List ((Nat × Nat) × List Char)) : List ((Nat × Nat) × List Char) :=
  repls.foldr insDesc []

/-- `apply_span_replacements` of `app/main1.py`. -/
def apply_span_replacements (source : List Char) (repls : List ((Nat × Nat) × List Char)) : List Char :=
  (pySortDesc repls).foldl (fun out p => splice out p.1.1 p.1.2 p.2) source

/-- The specified meaning of replacement application (spec 4.3): the
text with each span's substring replaced by its paired replacement,
the spans being given in ascending order.  `pos` is the cursor from
which the untouched text is copied. -/
def renderRepls (txt : List Char) : Nat → List ((Nat × Nat) × List Char) → List Char
  | pos, [] => txt.drop pos
  | pos, ((s, e), r) :: rest => (txt.drop pos).take (s - pos) ++ r ++ renderRepls txt e rest

/-- Well-formed replacement input: spans in ascending order, pairwise
disjoint, nonempty, within the text. -/
def SpansOK (txt : List Char) : Nat → List ((Nat × Nat) × List Char) → Prop
  | pos, [] => pos ≤ txt.length
  | pos, ((s, e), _) :: rest => pos ≤ s ∧ s < e ∧ SpansOK txt e rest

/-! ### Decomposition lemmas for the atomic parsers -/

theorem pLit_append : ∀ (lit s con r : List Char), pLit lit s = some (con, r) → s = con ++ r := by
  intro lit
  induction lit with
  | nil =>
    intro s con r h
    simp only [pLit, Option.some.injEq, Prod.mk.injEq] at h
    rw [← h.1, ← h.2]
    rfl
  | cons l ls ih =>
    intro s con r h
    cases s with
    | nil => simp [pLit] at h
    | cons c cs =>
      simp only [pLit] at h
      by_cases hc : ciEq l c
      · rw [if_pos hc] at h
        cases hp : pLit ls cs with
        | none => rw [hp] at h; cases h
        | some pr =>
          rw [hp] at h
          obtain ⟨con', r'⟩ := pr
          simp only [Option.some.injEq, Prod.mk.injEq] at h
          rw [← h.1, ← h.2]
          simpa using congrArg (c :: ·) (ih cs con' r' hp)
      · rw [if_neg hc] at h; cases h

theorem pLit_length : ∀ (lit s con r : List Char), pLit lit s = some (con, r) → con.length = lit.length := by
  intro lit
  induction lit with
  | nil =>
    intro s con r h
    simp only [pLit, Option.some.injEq, Prod.mk.injEq] at h
    rw [← h.1]
  | cons l ls ih =>
    intro s con r h
    cases s with
    | nil => simp [pLit] at h
    | cons c cs =>
      simp only [pLit] at h
      by_cases hc : ciEq l c
      · rw [if_pos hc] at h
        cases hp : pLit ls cs with
        | none => rw [hp] at h; cases h
        | some pr =>
          rw [hp] at h
          obtain ⟨con', r'⟩ := pr
          simp only [Option.some.injEq, Prod.mk.injEq] at h
          rw [← h.1]
          simpa using ih cs con' r' hp
      · rw [if_neg hc] at h; cases h

/-- The consumed text of a case-insensitive literal upper-cases to the
upper-casing of the literal. -/
theorem pLit_upper : ∀ (lit s con r : List Char), pLit lit s = some (con, r) → upperL con = upperL lit := by
  intro lit
  induction lit with
  | nil =>
    intro s con r h
    simp only [pLit, Option.some.injEq, Prod.mk.injEq] at h
    rw [← h.1]
  | cons l ls ih =>
    intro s con r h
    cases s with
    | nil => simp [pLit] at h
    | cons c cs =>
      simp only [pLit] at h
      by_cases hc : ciEq l c
      · rw [if_pos hc] at h
        cases hp : pLit ls cs with
        | none => rw [hp] at h; cases h
        | some pr =>
          rw [hp] at h
          obtain ⟨con', r'⟩ := pr
          simp only [Option.some.injEq, Prod.mk.injEq] at h
          rw [← h.1]
          have hcc : upperChar c = upperChar l := (of_decide_eq_true hc).symm
          have h2 := ih cs con' r' hp
          simp only [upperL, List.map_cons] at h2 ⊢
          rw [hcc, h2]
      · rw [if_neg hc] at h; cases h

/-- Completeness of the case-insensitive literal parser: a prefix that
upper-cases to the literal's upper-casing is consumed. -/
theorem pLit_complete : ∀ (lit x r : List Char), upperL x = upperL lit →
    pLit lit (x ++ r) = some (x, r) := by
  intro lit
  induction lit with
  | nil =>
    intro x r h
    have : x = [] := by
      cases x with
      | nil => rfl
      | cons a as => simp [upperL] at h
    subst this
    rfl
  | cons l ls ih =>
    intro x r h
    cases x with
    | nil => simp [upperL] at h
    | cons a as =>
      simp only [upperL, List.map_cons, List.cons.injEq] at h
      have hc : ciEq l a := by
        simp [ciEq, h.1]
      simp only [List.cons_append, pLit, hc, if_pos, List.append_eq]
      rw [ih as r (by simpa [upperL] using h.2)]

theorem takeRun_append (p : Char → Bool) : ∀ s : List Char, (takeRun p s).1 ++ (takeRun p s).2 = s := by
  intro s
  induction s with
  | nil => rfl
  | cons c cs ih =>
    simp only [takeRun]
    by_cases hc : p c
    · rw [if_pos hc]
      simpa using ih
    · rw [if_neg hc]
      rfl

theorem pRun1_append (p : Char → Bool) (s a b : List Char) (h : pRun1 p s = some (a, b)) :
    s = a ++ b := by
  unfold pRun1 at h
  cases hr : takeRun p s with
  | mk x y =>
    rw [hr] at h
    cases x with
    | nil => simp at h
    | cons c cs =>
      simp only [Option.some.injEq, Prod.mk.injEq] at h
      have := takeRun_append p s
      rw [hr] at this
      rw [← h.1, ← h.2]
      exact this.symm

theorem pRun1_ne_nil (p : Char → Bool) (s a b : List Char) (h : pRun1 p s = some (a, b)) :
    a ≠ [] := by
  unfold pRun1 at h
  cases hr : takeRun p s with
  | mk x y =>
    rw [hr] at h
    cases x with
    | nil => simp at h
    | cons c cs =>
      simp only [Option.some.injEq, Prod.mk.injEq] at h
      rw [← h.1]
      simp

/-- A decomposed suffix yields the substring at the matching span. -/
theorem extract_of_drop {txt pre rest : List Char} {i : Nat}
    (h : txt.drop i = pre ++ rest) : extract txt i (i + pre.length) = pre := by
  unfold extract
  rw [Nat.add_sub_cancel_left, h]
  exact List.take_left pre rest

/-! ### Decomposition of the transaction matcher -/

theorem pVerb_append (s con r : List Char) (h : pVerb s = some (con, r)) :
    s = con ++ r ∧ con ≠ [] := by
  have hSubmit : ∀ hs : pLit "SUBMIT".toList s = some (con, r), s = con ++ r ∧ con ≠ [] := by
    intro hs
    refine ⟨pLit_append _ _ _ _ hs, ?_⟩
    have := pLit_length _ _ _ _ hs
    intro hnil
    simp [hnil] at this
  unfold pVerb at h
  cases h1 : pLit "CALL".toList s with
  | none => rw [h1] at h; exact hSubmit h
  | some p1 =>
    obtain ⟨c1, s1⟩ := p1
    rw [h1] at h
    dsimp only at h
    cases h2 : pRun1 isSpaceChar s1 with
    | none => rw [h2] at h; exact hSubmit h
    | some p2 =>
      obtain ⟨c2, s2⟩ := p2
      rw [h2] at h
      dsimp only at h
      cases h3 : pLit "TRANSACTION".toList s2 with
      | none => rw [h3] at h; exact hSubmit h
      | some p3 =>
        obtain ⟨c3, s3⟩ := p3
        rw [h3] at h
        dsimp only at h
        simp only [Option.some.injEq, Prod.mk.injEq] at h
        obtain ⟨hcon, hr⟩ := h
        subst hcon; subst hr
        constructor
        · rw [pLit_append _ _ _ _ h1, pRun1_append _ _ _ _ h2, pLit_append _ _ _ _ h3]
          simp
        · intro hnil
          have hlen := congrArg List.length hnil
          simp only [List.length_append, List.length_nil] at hlen
          have h4 : c1.length = 4 := by rw [pLit_length _ _ _ _ h1]; rfl
          omega

theorem pTxnCode_append : ∀ (codes : List (List Char)) (s con r : List Char),
    pTxnCode codes s = some (con, r) → s = con ++ r := by
  intro codes
  induction codes with
  | nil => intro s con r h; simp [pTxnCode] at h
  | cons code rest ih =>
    intro s con r h
    unfold pTxnCode at h
    cases h1 : pLit code s with
    | some p1 =>
      rw [h1] at h
      simp only [Option.some.injEq] at h
      subst h
      exact pLit_append _ _ _ _ h1
    | none =>
      rw [h1] at h
      exact ih s con r h

theorem pQuoteCode_append (s q txn r : List Char) (h : pQuoteCode s = some (q, txn, r)) :
    s = q ++ txn ++ r := by
  cases s with
  | nil => cases h
  | cons c cs =>
    simp only [pQuoteCode] at h
    have hbare : ∀ hb : (match pTxnCode OBSOLETE_MB_TXNS (c :: cs) with
        | some (txn, r) => some (([] : List Char), txn, r)
        | none => none) = some (q, txn, r), c :: cs = q ++ txn ++ r := by
      intro hb
      cases h2 : pTxnCode OBSOLETE_MB_TXNS (c :: cs) with
      | some p2 =>
        obtain ⟨t2, r2⟩ := p2
        rw [h2] at hb
        simp only [Option.some.injEq, Prod.mk.injEq] at hb
        obtain ⟨hq1, ht1, hr1⟩ := hb
        subst hq1; subst ht1; subst hr1
        simpa using pTxnCode_append _ _ _ _ h2
      | none => rw [h2] at hb; cases hb
    by_cases hq : c = sq || c = dq
    · rw [if_pos hq] at h
      cases h1 : pTxnCode OBSOLETE_MB_TXNS cs with
      | some p1 =>
        obtain ⟨t1, r1⟩ := p1
        rw [h1] at h
        simp only [Option.some.injEq, Prod.mk.injEq] at h
        obtain ⟨hq1, ht1, hr1⟩ := h
        subst hq1; subst ht1; subst hr1
        simpa using congrArg (c :: ·) (pTxnCode_append _ _ _ _ h1)
      | none =>
        rw [h1] at h
        exact hbare h
    · rw [if_neg hq] at h
      exact hbare h

theorem takeOptQuote_append (s : List Char) : (takeOptQuote s).1 ++ (takeOptQuote s).2 = s := by
  cases s with
  | nil => rfl
  | cons c cs =>
    simp only [takeOptQuote]
    by_cases hq : c = sq || c = dq
    · rw [if_pos hq]
      rfl
    · rw [if_neg hq]
      rfl

theorem takeOptDot_append (s : List Char) : (takeOptDot s).1 ++ (takeOptDot s).2 = s := by
  cases s with
  | nil => rfl
  | cons c cs =>
    by_cases hd : c = '.'
    · subst hd; rfl
    · have : takeOptDot (c :: cs) = ([], c :: cs) := by
        unfold takeOptDot
        split
        · rename_i heq
          cases heq
          exact absurd rfl hd
        · rfl
      rw [this]
      rfl

/-- A successful attempt of the transaction pattern at `i` starts at
`i`, consumes exactly the recorded full text, and that text is not
empty. -/
theorem matchTxnAt_sound (txt : List Char) (i : Nat) (m : TxnUsage)
    (h : matchTxnAt txt i = some m) :
    m.spanStart = i ∧ m.spanEnd = i + m.full.length ∧ m.full ≠ [] ∧
      m.suggested_statement = suggest_replacement m.stmt ∧
      ∃ rest, txt.drop i = m.full ++ rest := by
  unfold matchTxnAt at h
  dsimp only at h
  cases h1 : pVerb (txt.drop i) with
  | none => rw [h1] at h; cases h
  | some p1 =>
    obtain ⟨stmt, s1⟩ := p1
    rw [h1] at h
    dsimp only at h
    cases h2 : pRun1 isSpaceChar s1 with
    | none => rw [h2] at h; cases h
    | some p2 =>
      obtain ⟨w1, s2⟩ := p2
      rw [h2] at h
      dsimp only at h
      cases h3 : pQuoteCode s2 with
      | none => rw [h3] at h; cases h
      | some p3 =>
        obtain ⟨q1, txn, s3⟩ := p3
        rw [h3] at h
        dsimp only at h
        obtain ⟨hv1, hv2⟩ := pVerb_append _ _ _ h1
        have e2 := pRun1_append _ _ _ _ h2
        have e3 := pQuoteCode_append _ _ _ _ h3
        have e4 := takeOptQuote_append s3
        have e5 := takeRun_append isSpaceChar (takeOptQuote s3).2
        have e6 := takeOptDot_append (takeRun isSpaceChar (takeOptQuote s3).2).2
        cases hA : takeOptQuote s3 with
        | mk q2 s4 =>
          rw [hA] at h e5 e6
          dsimp only at e5 e6
          cases hB : takeRun isSpaceChar s4 with
          | mk w2 s5 =>
            rw [hB] at h e5 e6
            dsimp only at e5 e6
            cases hC : takeOptDot s5 with
            | mk d s6 =>
              rw [hC] at h e6
              dsimp only at h e6
              rw [hA] at e4
              dsimp only at e4
              simp only [Option.some.injEq] at h
              rw [← h]
              refine ⟨rfl, rfl, ?_, rfl, ?_⟩
              · intro hnil
                have : stmt = [] := by
                  cases stmt with
                  | nil => rfl
                  | cons a as => simp at hnil
                exact hv2 this
              · refine ⟨s6, ?_⟩
                rw [hv1, e2, e3, ← e4, ← e5, ← e6]
                simp [List.append_assoc]

/-! ### Decomposition of the SELECT matcher -/

theorem pDotTail_append (s t r : List Char) (h : pDotTail s = some (t, r)) :
    s = t ++ '.' :: r := by
  unfold pDotTail at h
  have e := takeRun_append (fun c => c ≠ '.') s
  cases hr : takeRun (fun c => c ≠ '.') s with
  | mk t1 r1 =>
    rw [hr] at h e
    cases r1 with
    | nil => cases h
    | cons c cs =>
      dsimp only at h
      by_cases hc : c = '.'
      · rw [if_pos hc] at h
        subst hc
        simp only [Option.some.injEq, Prod.mk.injEq] at h
        obtain ⟨ht, hrr⟩ := h
        subst ht; subst hrr
        exact e.symm
      · rw [if_neg hc] at h
        cases h

theorem pIntoTab_append (s con tt tn r : List Char)
    (h : pIntoTab s = some (con, tt, tn, r)) : s = con ++ '.' :: r := by
  unfold pIntoTab at h
  cases h1 : pLit "INTO".toList s with
  | none => rw [h1] at h; cases h
  | some p1 =>
    obtain ⟨c1, s1⟩ := p1
    rw [h1] at h
    dsimp only at h
    cases h2 : pRun1 isSpaceChar s1 with
    | none => rw [h2] at h; cases h
    | some p2 =>
      obtain ⟨c2, s2⟩ := p2
      rw [h2] at h
      dsimp only at h
      cases h3 : pLit "TABLE".toList s2 with
      | none => rw [h3] at h; cases h
      | some p3 =>
        obtain ⟨c3, s3⟩ := p3
        rw [h3] at h
        dsimp only at h
        cases h4 : pRun1 isSpaceChar s3 with
        | none => rw [h4] at h; cases h
        | some p4 =>
          obtain ⟨c4, s4⟩ := p4
          rw [h4] at h
          dsimp only at h
          cases h5 : pRun1 isVarChar s4 with
          | none => rw [h5] at h; cases h
          | some p5 =>
            obtain ⟨v, s5⟩ := p5
            rw [h5] at h
            dsimp only at h
            cases h6 : pDotTail s5 with
            | none => rw [h6] at h; cases h
            | some p6 =>
              obtain ⟨tl, s6⟩ := p6
              rw [h6] at h
              simp only [Option.some.injEq, Prod.mk.injEq] at h
              obtain ⟨hcon, _, _, hr⟩ := h
              subst hcon; subst hr
              rw [pLit_append _ _ _ _ h1, pRun1_append _ _ _ _ h2,
                pLit_append _ _ _ _ h3, pRun1_append _ _ _ _ h4,
                pRun1_append _ _ _ _ h5, pDotTail_append _ _ _ h6]
              simp [List.append_assoc]

theorem pIntoWa_append (s con tt tn r : List Char)
    (h : pIntoWa s = some (con, tt, tn, r)) : s = con ++ '.' :: r := by
  unfold pIntoWa at h
  cases h1 : pLit "INTO".toList s with
  | none => rw [h1] at h; cases h
  | some p1 =>
    obtain ⟨c1, s1⟩ := p1
    rw [h1] at h
    dsimp only at h
    cases h2 : pRun1 isSpaceChar s1 with
    | none => rw [h2] at h; cases h
    | some p2 =>
      obtain ⟨c2, s2⟩ := p2
      rw [h2] at h
      dsimp only at h
      cases h3 : pRun1 isVarChar s2 with
      | none => rw [h3] at h; cases h
      | some p3 =>
        obtain ⟨v, s3⟩ := p3
        rw [h3] at h
        dsimp only at h
        cases h4 : pDotTail s3 with
        | none => rw [h4] at h; cases h
        | some p4 =>
          obtain ⟨tl, s4⟩ := p4
          rw [h4] at h
          simp only [Option.some.injEq, Prod.mk.injEq] at h
          obtain ⟨hcon, _, _, hr⟩ := h
          subst hcon; subst hr
          rw [pLit_append _ _ _ _ h1, pRun1_append _ _ _ _ h2,
            pRun1_append _ _ _ _ h3, pDotTail_append _ _ _ h4]
          simp [List.append_assoc]

theorem pInto_append (s con tt tn r : List Char)
    (h : pInto s = some (con, tt, tn, r)) : s = con ++ '.' :: r := by
  unfold pInto at h
  cases h1 : pIntoTab s with
  | some p1 =>
    rw [h1] at h
    simp only [Option.some.injEq] at h
    subst h
    exact pIntoTab_append _ _ _ _ _ h1
  | none =>
    rw [h1] at h
    exact pIntoWa_append _ _ _ _ _ h

theorem pMiddleIntoStep_append (s mid con tt tn r : List Char)
    (h : pMiddleIntoStep s = some (mid, con, tt, tn, r)) :
    s = mid ++ con ++ '.' :: r := by
  unfold pMiddleIntoStep at h
  cases h1 : pInto s with
  | some p1 =>
    obtain ⟨c1, t1, n1, r1⟩ := p1
    rw [h1] at h
    simp only [Option.some.injEq, Prod.mk.injEq] at h
    obtain ⟨hm, hc, _, _, hr⟩ := h
    subst hm; subst hc; subst hr
    simpa using pInto_append _ _ _ _ _ h1
  | none =>
    rw [h1] at h
    cases h

theorem pMiddleInto_succ_eq (fuel : Nat) (s : List Char) :
    pMiddleInto (fuel + 1) s =
      match pMiddleIntoStep s with
      | some q => some q
      | none =>
        match s with
        | [] => none
        | c :: cs =>
          match pMiddleInto fuel cs with
          | some (mid, con, tt, tn, r) => some (c :: mid, con, tt, tn, r)
          | none => none := rfl

theorem pMiddleInto_append : ∀ (fuel : Nat) (s mid con tt tn r : List Char),
    pMiddleInto fuel s = some (mid, con, tt, tn, r) → s = mid ++ con ++ '.' :: r := by
  intro fuel
  induction fuel with
  | zero =>
    intro s mid con tt tn r h
    exact pMiddleIntoStep_append _ _ _ _ _ _ h
  | succ fuel ih =>
    intro s mid con tt tn r h
    rw [pMiddleInto_succ_eq] at h
    cases h1 : pMiddleIntoStep s with
    | some q =>
      rw [h1] at h
      simp only [Option.some.injEq] at h
      subst h
      exact pMiddleIntoStep_append _ _ _ _ _ _ h1
    | none =>
      rw [h1] at h
      cases s with
      | nil => cases h
      | cons c cs =>
        dsimp only at h
        cases h2 : pMiddleInto fuel cs with
        | none => rw [h2] at h; cases h
        | some p2 =>
          obtain ⟨m2, c2, t2, n2, r2⟩ := p2
          rw [h2] at h
          simp only [Option.some.injEq, Prod.mk.injEq] at h
          obtain ⟨hm, hc, _, _, hr⟩ := h
          subst hm; subst hc; subst hr
          simpa using congrArg (c :: .) (ih cs m2 c2 t2 n2 r2 h2)

theorem tryTable_append : ∀ (k : Nat) (s4 : List Char) (parts : SelParts),
    tryTable s4 k = some parts → s4 = parts.pre ++ '.' :: parts.rest := by
  intro k
  induction k with
  | zero => intro s4 parts h; cases h
  | succ k ih =>
    intro s4 parts h
    unfold tryTable at h
    dsimp only at h
    cases h1 : pMiddleInto (s4.drop (k + 1)).length (s4.drop (k + 1)) with
    | some p1 =>
      obtain ⟨mid, con, tt, tn, r⟩ := p1
      rw [h1] at h
      simp only [Option.some.injEq] at h
      have e1 := pMiddleInto_append _ _ _ _ _ _ _ h1
      rw [← h]
      have hsplit : s4 = s4.take (k + 1) ++ s4.drop (k + 1) := (List.take_append_drop _ _).symm
      conv_lhs => rw [hsplit, e1]
      simp [List.append_assoc]
    | none =>
      rw [h1] at h
      exact ih s4 parts h

theorem pAfterFields_append (sF : List Char) (parts : SelParts)
    (h : pAfterFields sF = some parts) : sF = parts.pre ++ '.' :: parts.rest := by
  unfold pAfterFields at h
  cases h1 : pRun1 isSpaceChar sF with
  | none => rw [h1] at h; cases h
  | some p1 =>
    obtain ⟨wA, s2⟩ := p1
    rw [h1] at h
    dsimp only at h
    cases h2 : pLit "FROM".toList s2 with
    | none => rw [h2] at h; cases h
    | some p2 =>
      obtain ⟨cF, s3⟩ := p2
      rw [h2] at h
      dsimp only at h
      cases h3 : pRun1 isSpaceChar s3 with
      | none => rw [h3] at h; cases h
      | some p3 =>
        obtain ⟨wB, s4⟩ := p3
        rw [h3] at h
        dsimp only at h
        cases h4 : takeRun isWordChar s4 with
        | mk run rem =>
          rw [h4] at h
          cases run with
          | nil => cases h
          | cons rc rcs =>
            dsimp only at h
            cases h5 : tryTable s4 (rc :: rcs).length with
            | none => rw [h5] at h; cases h
            | some parts0 =>
              rw [h5] at h
              simp only [Option.some.injEq] at h
              have e5 := tryTable_append _ _ _ h5
              rw [← h]
              dsimp only
              rw [pRun1_append _ _ _ _ h1, pLit_append _ _ _ _ h2,
                pRun1_append _ _ _ _ h3, e5]
              simp [List.append_assoc]

theorem tryFields_append : ∀ (k0 : Nat) (rest0 : List Char) (k : Nat) (parts : SelParts),
    tryFields rest0 k0 = some (k, parts) →
      rest0.drop k = parts.pre ++ '.' :: parts.rest ∧ 1 ≤ k := by
  intro k0
  induction k0 with
  | zero => intro rest0 k parts h; cases h
  | succ k0 ih =>
    intro rest0 k parts h
    unfold tryFields at h
    cases h1 : pAfterFields (rest0.drop (k0 + 1)) with
    | some parts1 =>
      rw [h1] at h
      simp only [Option.some.injEq, Prod.mk.injEq] at h
      obtain ⟨hk, hp⟩ := h
      subst hk; subst hp
      exact ⟨pAfterFields_append _ _ h1, Nat.succ_le_succ (Nat.zero_le _)⟩
    | none =>
      rw [h1] at h
      exact ih rest0 k parts h

/-- A successful attempt of the SELECT pattern at `i` starts at `i`,
the recorded text followed by the terminating period is exactly the
consumed text, and the span end counts that period. -/
theorem matchSelAt_sound (txt : List Char) (i : Nat) (m : SelMatch)
    (h : matchSelAt txt i = some m) :
    m.spanStart = i ∧ m.spanEnd = i + m.text.length + 1 ∧
      ∃ rest, txt.drop i = m.text ++ '.' :: rest := by
  unfold matchSelAt at h
  dsimp only at h
  cases h1 : pLit "SELECT".toList (txt.drop i) with
  | none => rw [h1] at h; cases h
  | some p1 =>
    obtain ⟨c0, s1⟩ := p1
    rw [h1] at h
    dsimp only at h
    cases s1 with
    | nil => cases h
    | cons w0 rest0 =>
      dsimp only at h
      by_cases hw : isSpaceChar w0
      · rw [if_pos hw] at h
        cases h2 : tryFields rest0 (takeRun isFieldChar rest0).1.length with
        | none => rw [h2] at h; cases h
        | some p2 =>
          obtain ⟨k, parts⟩ := p2
          rw [h2] at h
          dsimp only at h
          simp only [Option.some.injEq] at h
          obtain ⟨e2, hk⟩ := tryFields_append _ _ _ _ h2
          rw [← h]
          refine ⟨rfl, rfl, ?_⟩
          · refine ⟨parts.rest, ?_⟩
            dsimp only
            rw [pLit_append _ _ _ _ h1]
            have : rest0 = rest0.take k ++ rest0.drop k := (List.take_append_drop _ _).symm
            conv_lhs => rw [this]
            rw [e2]
            simp [List.append_assoc]
      · rw [if_neg hw] at h
        cases h


/-! ### Scan lemmas -/

theorem mem_finditer {μ : Type} (matchAt : Nat → Option μ) (endOf : μ → Nat) (bound : Nat) :
    ∀ (fuel pos : Nat) (m : μ), m ∈ finditer matchAt endOf bound fuel pos →
      ∃ i, pos ≤ i ∧ matchAt i = some m := by
  intro fuel
  induction fuel with
  | zero => intro pos m h; cases h
  | succ fuel ih =>
    intro pos m h
    unfold finditer at h
    by_cases hb : pos > bound
    · rw [if_pos hb] at h; cases h
    · rw [if_neg hb] at h
      cases h1 : matchAt pos with
      | some m0 =>
        rw [h1] at h
        rcases List.mem_cons.mp h with he | ht
        · subst he; exact ⟨pos, Nat.le_refl _, h1⟩
        · obtain ⟨i, hi, hm⟩ := ih _ _ ht
          refine ⟨i, ?_, hm⟩
          have : pos + 1 ≤ max (endOf m0) (pos + 1) := Nat.le_max_right _ _
          omega
      | none =>
        rw [h1] at h
        obtain ⟨i, hi, hm⟩ := ih _ _ h
        exact ⟨i, by omega, hm⟩

theorem finditer_pairwise {μ : Type} (matchAt : Nat → Option μ) (startOf endOf : μ → Nat)
    (bound : Nat) (hstart : ∀ i m, matchAt i = some m → startOf m = i) :
    ∀ (fuel pos : Nat),
      (finditer matchAt endOf bound fuel pos).Pairwise (fun a b => startOf a < startOf b) := by
  intro fuel
  induction fuel with
  | zero => intro pos; exact List.Pairwise.nil
  | succ fuel ih =>
    intro pos
    unfold finditer
    by_cases hb : pos > bound
    · rw [if_pos hb]; exact List.Pairwise.nil
    · rw [if_neg hb]
      cases h1 : matchAt pos with
      | some m0 =>
        refine List.Pairwise.cons ?_ (ih _)
        intro b hb2
        obtain ⟨i, hi, hm⟩ := mem_finditer matchAt endOf bound _ _ _ hb2
        rw [hstart _ _ h1, hstart _ _ hm]
        have : pos + 1 ≤ max (endOf m0) (pos + 1) := Nat.le_max_right _ _
        omega
      | none => exact ih _

/-- Every reported transaction occurrence satisfies: the substring of
the code at its recorded span is exactly its recorded full text. -/
theorem find_mb_extract (txt : List Char) (m : TxnUsage) (h : m ∈ find_mb_txn_usage txt) :
    extract txt m.spanStart m.spanEnd = m.full := by
  obtain ⟨i, _, hm⟩ := mem_finditer _ _ _ _ _ _ h
  obtain ⟨hs, he, _, _, rest, hd⟩ := matchTxnAt_sound txt i m hm
  rw [hs, he]
  exact extract_of_drop hd

/-- Every reported SELECT occurrence satisfies: the substring of the
code at its recorded span is its recorded text followed by the
terminating period. -/
theorem find_selects_extract (txt : List Char) (m : SelMatch) (h : m ∈ find_selects txt) :
    extract txt m.spanStart m.spanEnd = m.text ++ ['.'] := by
  obtain ⟨i, _, hm⟩ := mem_finditer _ _ _ _ _ _ h
  obtain ⟨hs, he, rest, hd⟩ := matchSelAt_sound txt i m hm
  rw [hs, he]
  have hd2 : txt.drop i = (m.text ++ ['.']) ++ rest := by
    rw [hd]
    simp
  have hlen : m.text.length + 1 = (m.text ++ ['.']).length := by
    simp
  rw [Nat.add_assoc, hlen]
  exact extract_of_drop hd2

/-- The matched starts of the transaction scan are strictly
increasing (left-to-right order). -/
theorem find_mb_pairwise (txt : List Char) :
    (find_mb_txn_usage txt).Pairwise (fun a b => a.spanStart < b.spanStart) := by
  refine finditer_pairwise _ _ _ _ ?_ _ _
  intro i m hm
  exact (matchTxnAt_sound txt i m hm).1

/-- The matched starts of the SELECT scan are strictly increasing
(left-to-right order). -/
theorem find_selects_pairwise (txt : List Char) :
    (find_selects txt).Pairwise (fun a b => a.spanStart < b.spanStart) := by
  refine finditer_pairwise _ _ _ _ ?_ _ _
  intro i m hm
  exact (matchSelAt_sound txt i m hm).1


/-! ### Correctness of `apply_span_replacements` -/

theorem SpansOK_le (txt : List Char) :
    ∀ (repls : List ((Nat × Nat) × List Char)) (pos : Nat),
      SpansOK txt pos repls → pos ≤ txt.length := by
  intro repls
  induction repls with
  | nil => intro pos h; exact h
  | cons p rest ih =>
    intro pos h
    obtain ⟨⟨sp, ep⟩, rp⟩ := p
    obtain ⟨h1, h2, h3⟩ := h
    have := ih ep h3
    omega

theorem SpansOK_mono (txt : List Char) :
    ∀ (repls : List ((Nat × Nat) × List Char)) (pos q : Nat),
      q ≤ pos → SpansOK txt pos repls → SpansOK txt q repls := by
  intro repls
  induction repls with
  | nil => intro pos q hq h; exact le_trans hq h
  | cons p rest _ =>
    intro pos q hq h
    obtain ⟨⟨sp, ep⟩, rp⟩ := p
    obtain ⟨h1, h2, h3⟩ := h
    exact ⟨le_trans hq h1, h2, h3⟩

theorem SpansOK_mem_le (txt : List Char) :
    ∀ (repls : List ((Nat × Nat) × List Char)) (pos : Nat),
      SpansOK txt pos repls → ∀ y ∈ repls, pos ≤ y.1.1 := by
  intro repls
  induction repls with
  | nil => intro pos _ y hy; cases hy
  | cons p rest ih =>
    intro pos h y hy
    obtain ⟨⟨sp, ep⟩, rp⟩ := p
    obtain ⟨h1, h2, h3⟩ := h
    rcases List.mem_cons.mp hy with he | ht
    · subst he; exact h1
    · have := ih ep h3 y ht
      omega

theorem SpansOK_pairwise (txt : List Char) :
    ∀ (repls : List ((Nat × Nat) × List Char)) (pos : Nat),
      SpansOK txt pos repls → List.Pairwise (fun a b => a.1.1 < b.1.1) repls := by
  intro repls
  induction repls with
  | nil => intro pos _; exact List.Pairwise.nil
  | cons p rest ih =>
    intro pos h
    obtain ⟨⟨sp, ep⟩, rp⟩ := p
    obtain ⟨h1, h2, h3⟩ := h
    refine List.Pairwise.cons ?_ (ih ep h3)
    intro y hy
    have := SpansOK_mem_le txt rest ep h3 y hy
    simp only
    omega

theorem renderRepls_drop (txt : List Char) :
    ∀ (repls : List ((Nat × Nat) × List Char)) (pos q q' : Nat),
      q ≤ q' → q' ≤ pos → SpansOK txt pos repls →
      (renderRepls txt q repls).drop (q' - q) = renderRepls txt q' repls := by
  intro repls
  induction repls with
  | nil =>
    intro pos q q' h1 h2 _
    show (txt.drop q).drop (q' - q) = txt.drop q'
    rw [List.drop_drop]
    congr 1
    omega
  | cons p rest _ =>
    intro pos q q' h1 h2 h
    obtain ⟨⟨sp, ep⟩, rp⟩ := p
    obtain ⟨hp1, hp2, hp3⟩ := h
    have hep : ep ≤ txt.length := SpansOK_le txt rest ep hp3
    show ((txt.drop q).take (sp - q) ++ rp ++ renderRepls txt ep rest).drop (q' - q) =
      (txt.drop q').take (sp - q') ++ rp ++ renderRepls txt ep rest
    rw [List.append_assoc, List.drop_append_of_le_length
      (by
        rw [List.length_take, List.length_drop]
        omega)]
    rw [List.drop_take]
    have : sp - q - (q' - q) = sp - q' := by omega
    rw [this, List.drop_drop]
    have : q + (q' - q) = q' := by omega
    rw [this, List.append_assoc]

theorem renderRepls_take (txt : List Char) :
    ∀ (repls : List ((Nat × Nat) × List Char)) (pos k : Nat),
      k ≤ pos → SpansOK txt pos repls →
      (renderRepls txt 0 repls).take k = txt.take k := by
  intro repls
  induction repls with
  | nil =>
    intro pos k h1 _
    show (txt.drop 0).take k = txt.take k
    rw [List.drop_zero]
  | cons p rest _ =>
    intro pos k h1 h
    obtain ⟨⟨sp, ep⟩, rp⟩ := p
    obtain ⟨hp1, hp2, hp3⟩ := h
    have hep : ep ≤ txt.length := SpansOK_le txt rest ep hp3
    show ((txt.drop 0).take (sp - 0) ++ rp ++ renderRepls txt ep rest).take k = txt.take k
    rw [List.drop_zero, Nat.sub_zero, List.append_assoc, List.take_append_of_le_length
      (by
        rw [List.length_take]
        omega)]
    rw [List.take_take]
    congr 1
    omega

theorem foldr_splice_render (txt : List Char) :
    ∀ (repls : List ((Nat × Nat) × List Char)), SpansOK txt 0 repls →
      List.foldr (fun p out => splice out p.1.1 p.1.2 p.2) txt repls = renderRepls txt 0 repls := by
  intro repls
  induction repls with
  | nil =>
    intro _
    show txt = txt.drop 0
    rw [List.drop_zero]
  | cons p rest ih =>
    intro h
    obtain ⟨⟨sp, ep⟩, rp⟩ := p
    obtain ⟨hp1, hp2, hp3⟩ := h
    have h0 : SpansOK txt 0 rest := SpansOK_mono txt rest ep 0 (Nat.zero_le _) hp3
    show splice (List.foldr (fun p out => splice out p.1.1 p.1.2 p.2) txt rest) sp ep rp =
      renderRepls txt 0 (((sp, ep), rp) :: rest)
    rw [ih h0]
    unfold splice
    rw [renderRepls_take txt rest ep sp (le_of_lt hp2) hp3]
    have hdrop := renderRepls_drop txt rest ep 0 ep (Nat.zero_le _) (le_refl _) hp3
    rw [Nat.sub_zero] at hdrop
    rw [hdrop]
    show txt.take sp ++ rp ++ renderRepls txt ep rest =
      (txt.drop 0).take (sp - 0) ++ rp ++ renderRepls txt ep rest
    rw [List.drop_zero, Nat.sub_zero]

theorem insDesc_of_lt (x : (Nat × Nat) × List Char) :
    ∀ (l : List ((Nat × Nat) × List Char)), (∀ y ∈ l, x.1.1 < y.1.1) →
      insDesc x l = l ++ [x] := by
  intro l
  induction l with
  | nil => intro _; rfl
  | cons y ys ih =>
    intro h
    unfold insDesc
    have hy : x.1.1 < y.1.1 := h y (List.mem_cons_self _ _)
    rw [if_neg (by omega)]
    rw [ih (fun z hz => h z (List.mem_cons_of_mem _ hz))]
    rfl

theorem pySortDesc_of_sorted :
    ∀ (repls : List ((Nat × Nat) × List Char)),
      List.Pairwise (fun a b => a.1.1 < b.1.1) repls →
      pySortDesc repls = repls.reverse := by
  intro repls
  induction repls with
  | nil => intro _; rfl
  | cons x xs ih =>
    intro h
    have hx := List.pairwise_cons.mp h
    show insDesc x (pySortDesc xs) = (x :: xs).reverse
    rw [ih hx.2, insDesc_of_lt x _ (by
      intro y hy
      exact hx.1 y (List.mem_reverse.mp hy))]
    simp

/-- `apply_span_replacements` computes the specified replacement: for
well-formed spans (ascending, pairwise disjoint, nonempty, within the
text) the result is the text with each span's substring replaced by
its paired replacement. -/
theorem apply_span_replacements_eq (txt : List Char)
    (repls : List ((Nat × Nat) × List Char)) (h : SpansOK txt 0 repls) :
    apply_span_replacements txt repls = renderRepls txt 0 repls := by
  unfold apply_span_replacements
  rw [pySortDesc_of_sorted repls (SpansOK_pairwise txt repls 0 h), List.foldl_reverse]
  exact foldr_splice_render txt repls h


/-! ### Lemmas about `ensure_draft_filter` -/

theorem upperChar_idem (c : Char) : upperChar (upperChar c) = upperChar c := by
  by_cases h1 : c = 'a'
  · subst h1; decide
  by_cases h2 : c = 'b'
  · subst h2; decide
  by_cases h3 : c = 'c'
  · subst h3; decide
  by_cases h4 : c = 'd'
  · subst h4; decide
  by_cases h5 : c = 'e'
  · subst h5; decide
  by_cases h6 : c = 'f'
  · subst h6; decide
  by_cases h7 : c = 'g'
  · subst h7; decide
  by_cases h8 : c = 'h'
  · subst h8; decide
  by_cases h9 : c = 'i'
  · subst h9; decide
  by_cases h10 : c = 'j'
  · subst h10; decide
  by_cases h11 : c = 'k'
  · subst h11; decide
  by_cases h12 : c = 'l'
  · subst h12; decide
  by_cases h13 : c = 'm'
  · subst h13; decide
  by_cases h14 : c = 'n'
  · subst h14; decide
  by_cases h15 : c = 'o'
  · subst h15; decide
  by_cases h16 : c = 'p'
  · subst h16; decide
  by_cases h17 : c = 'q'
  · subst h17; decide
  by_cases h18 : c = 'r'
  · subst h18; decide
  by_cases h19 : c = 's'
  · subst h19; decide
  by_cases h20 : c = 't'
  · subst h20; decide
  by_cases h21 : c = 'u'
  · subst h21; decide
  by_cases h22 : c = 'v'
  · subst h22; decide
  by_cases h23 : c = 'w'
  · subst h23; decide
  by_cases h24 : c = 'x'
  · subst h24; decide
  by_cases h25 : c = 'y'
  · subst h25; decide
  by_cases h26 : c = 'z'
  · subst h26; decide
  by_cases h27 : c = 'μ'
  · subst h27; decide
  by_cases h28 : c = 'β'
  · subst h28; decide
  by_cases h29 : c = 'θ'
  · subst h29; decide
  by_cases h30 : c = 'α'
  · subst h30; decide
  have hfix : upperChar c = c := by
    unfold upperChar
    rw [if_neg h1, if_neg h2, if_neg h3, if_neg h4, if_neg h5, if_neg h6, if_neg h7, if_neg h8, if_neg h9, if_neg h10, if_neg h11, if_neg h12, if_neg h13, if_neg h14, if_neg h15, if_neg h16, if_neg h17, if_neg h18, if_neg h19, if_neg h20, if_neg h21, if_neg h22, if_neg h23, if_neg h24, if_neg h25, if_neg h26, if_neg h27, if_neg h28, if_neg h29, if_neg h30]
  rw [hfix]
  exact hfix

theorem upperL_idem (l : List Char) : upperL (upperL l) = upperL l := by
  unfold upperL
  rw [List.map_map]
  exact List.map_congr_left (fun c _ => upperChar_idem c)

theorem upperL_append (a b : List Char) : upperL (a ++ b) = upperL a ++ upperL b := by
  unfold upperL
  exact List.map_append _ _ _

/-- A successful attempt anywhere inside the text makes the search
succeed. -/
theorem searchDraft_of_draftAt (pat : List Char) :
    ∀ (l t : List Char), draftAt pat t = true → searchDraft pat (l ++ t) = true := by
  intro l
  induction l with
  | nil =>
    intro t h
    cases t with
    | nil =>
      exfalso
      unfold draftAt at h
      cases pat with
      | nil =>
        simp only [pLit] at h
        simp only [takeRun] at h
        cases h
      | cons p ps => simp [pLit] at h
    | cons c cs =>
      show searchDraft pat (c :: cs) = true
      unfold searchDraft
      rw [h]
      rfl
  | cons x xs ih =>
    intro t h
    show searchDraft pat (x :: (xs ++ t)) = true
    unfold searchDraft
    rw [ih t h]
    simp

/-- Completeness of the DRAFT-pattern attempt: a case-variant of the
literal followed by a space and an equals sign is accepted. -/
theorem draftAt_complete (table a r : List Char)
    (ha : upperL a = upperL (table ++ "-DRAFT".toList)) :
    draftAt (upperL table ++ "-DRAFT".toList) (a ++ ' ' :: '=' :: r) = true := by
  have hpat : upperL a = upperL (upperL table ++ "-DRAFT".toList) := by
    rw [upperL_append, upperL_idem, ← upperL_append]
    exact ha
  unfold draftAt
  rw [pLit_complete _ _ _ hpat]
  dsimp only
  have h1 : takeRun isSpaceChar (' ' :: '=' :: r) = ([' '], '=' :: r) := by
    simp [takeRun, isSpaceChar]
  rw [h1]
  rfl

/-- `ensure_draft_filter` leaves a statement unchanged as soon as the
statement contains the DRAFT literal (any casing) followed by a space
and an equals sign, for a watch-listed table. -/
theorem ensure_draft_filter_of_contains (stmt table l a r : List Char)
    (hw : upperL table = "VBRK".toList ∨ upperL table = "VBRP".toList)
    (hsub : stmt = l ++ (a ++ ' ' :: '=' :: r))
    (ha : upperL a = upperL (table ++ "-DRAFT".toList)) :
    ensure_draft_filter stmt table = stmt := by
  unfold ensure_draft_filter
  rw [if_pos hw]
  have hsearch : searchDraft (upperL table ++ "-DRAFT".toList) stmt = true := by
    rw [hsub]
    exact searchDraft_of_draftAt (upperL table ++ "-DRAFT".toList) l
      (a ++ ' ' :: '=' :: r) (draftAt_complete table a r ha)
  rw [if_pos hsearch]

/-- Soundness of the word search: a returned end offset `e` means a
case-variant of the literal occupies `[e - lit.length, e)`. -/
theorem firstWordEnd_sound (lit : List Char) :
    ∀ (s : List Char) (prev : Option Char) (i e : Nat),
      firstWordEnd lit prev s i = some e →
      ∃ j x r2, e = j + lit.length ∧ i ≤ j ∧ s.drop (j - i) = x ++ r2 ∧
        upperL x = upperL lit := by
  intro s
  induction s with
  | nil =>
    intro prev i e h
    unfold firstWordEnd at h
    by_cases hw : whereAt lit prev []
    · rw [if_pos hw] at h
      simp only [Option.some.injEq] at h
      unfold whereAt at hw
      rcases hp : pLit lit [] with _ | p
      · rw [hp] at hw
        simp at hw
      · obtain ⟨x, r2⟩ := p
        refine ⟨i, x, r2, by omega, Nat.le_refl _, ?_, pLit_upper _ _ _ _ hp⟩
        rw [Nat.sub_self]
        exact pLit_append _ _ _ _ hp
    · rw [if_neg hw] at h
      cases h
  | cons c cs ih =>
    intro prev i e h
    unfold firstWordEnd at h
    by_cases hw : whereAt lit prev (c :: cs)
    · rw [if_pos hw] at h
      simp only [Option.some.injEq] at h
      unfold whereAt at hw
      rcases hp : pLit lit (c :: cs) with _ | p
      · rw [hp] at hw
        simp at hw
      · obtain ⟨x, r2⟩ := p
        refine ⟨i, x, r2, by omega, Nat.le_refl _, ?_, pLit_upper _ _ _ _ hp⟩
        rw [Nat.sub_self]
        exact pLit_append _ _ _ _ hp
    · rw [if_neg hw] at h
      obtain ⟨j, x, r2, he, hij, hd, hx⟩ := ih (some c) (i + 1) e h
      refine ⟨j, x, r2, he, by omega, ?_, hx⟩
      have hj : j - i = (j - (i + 1)) + 1 := by omega
      rw [hj]
      simpa using hd

/-- `ensure_draft_filter` returns the statement unchanged when the
DRAFT search succeeds on a watch-listed table. -/
theorem ensure_draft_filter_of_search (stmt table : List Char)
    (hw : upperL table = "VBRK".toList ∨ upperL table = "VBRP".toList)
    (hs : searchDraft (upperL table ++ "-DRAFT".toList) stmt = true) :
    ensure_draft_filter stmt table = stmt := by
  unfold ensure_draft_filter
  rw [if_pos hw, if_pos hs]

/-- When the WHERE branch of `ensure_draft_filter` is taken, the
condition text is spliced in directly after the reported end offset of
the first `WHERE`. -/
theorem ensure_draft_filter_where (stmt table : List Char) (e : Nat)
    (hw : upperL table = "VBRK".toList ∨ upperL table = "VBRP".toList)
    (hnd : searchDraft (upperL table ++ "-DRAFT".toList) stmt = false)
    (hwh : firstWhereEnd stmt = some e) :
    ensure_draft_filter stmt table =
      stmt.take e ++ (' ' :: (upperL table ++ "-DRAFT = SPACE AND".toList)) ++ stmt.drop e := by
  unfold ensure_draft_filter
  rw [if_pos hw, if_neg (by rw [hnd]; exact Bool.false_ne_true), hwh]


/-! ### Whitespace normalization lemmas -/

theorem subWsAux_cons (b : Bool) (c : Char) (cs : List Char) :
    subWsAux b (c :: cs) =
      if isSpaceChar c then
        (if b then subWsAux true cs else ' ' :: subWsAux true cs)
      else c :: subWsAux false cs := rfl

theorem noAdjWs_two (a b : Char) (t : List Char) :
    noAdjWs (a :: b :: t) = ((!(isSpaceChar a && isSpaceChar b)) && noAdjWs (b :: t)) := rfl

theorem noAdjWs_cons_nonspace (c : Char) (X : List Char) (hc : isSpaceChar c = false)
    (hX : noAdjWs X = true) : noAdjWs (c :: X) = true := by
  cases X with
  | nil => rfl
  | cons x xs =>
    rw [noAdjWs_two, hc, hX]
    rfl

theorem noAdjWs_cons_head (c x : Char) (xs : List Char) (hx : isSpaceChar x = false)
    (hX : noAdjWs (x :: xs) = true) : noAdjWs (c :: x :: xs) = true := by
  rw [noAdjWs_two, hx, hX]
  simp

theorem subWsAux_true_head : ∀ l : List Char,
    subWsAux true l = [] ∨
      ∃ c cs, subWsAux true l = c :: cs ∧ isSpaceChar c = false := by
  intro l
  induction l with
  | nil => left; rfl
  | cons c cs ih =>
    rw [subWsAux_cons]
    by_cases hc : isSpaceChar c
    · rw [if_pos hc, if_pos rfl]
      exact ih
    · rw [if_neg hc]
      right
      exact ⟨c, subWsAux false cs, rfl, by simpa using hc⟩

theorem subWsAux_noAdj : ∀ (l : List Char) (b : Bool), noAdjWs (subWsAux b l) = true := by
  intro l
  induction l with
  | nil => intro b; rfl
  | cons c cs ih =>
    intro b
    rw [subWsAux_cons]
    by_cases hc : isSpaceChar c
    · rw [if_pos hc]
      cases b with
      | true =>
        rw [if_pos rfl]
        exact ih true
      | false =>
        rw [if_neg (by simp)]
        rcases subWsAux_true_head cs with hn | ⟨x, xs, hx, hxs⟩
        · rw [hn]
          rfl
        · rw [hx]
          refine noAdjWs_cons_head ' ' x xs hxs ?_
          rw [← hx]
          exact ih true
    · rw [if_neg hc]
      exact noAdjWs_cons_nonspace c _ (by simpa using hc) (ih false)

theorem noAdjWs_tail (c : Char) (l : List Char) (h : noAdjWs (c :: l) = true) :
    noAdjWs l = true := by
  cases l with
  | nil => rfl
  | cons x xs =>
    rw [noAdjWs_two] at h
    exact (Bool.and_eq_true_iff.mp h).2

theorem noAdjWs_of_append_right : ∀ (u m : List Char), noAdjWs (u ++ m) = true →
    noAdjWs m = true := by
  intro u
  induction u with
  | nil => intro m h; exact h
  | cons x xs ih =>
    intro m h
    exact ih m (noAdjWs_tail x (xs ++ m) h)

theorem noAdjWs_of_append_left : ∀ (m v : List Char), noAdjWs (m ++ v) = true →
    noAdjWs m = true := by
  intro m
  induction m with
  | nil => intro v _; rfl
  | cons x xs ih =>
    intro v h
    cases xs with
    | nil => rfl
    | cons y ys =>
      have h0 : (x :: y :: ys) ++ v = x :: y :: (ys ++ v) := rfl
      rw [h0, noAdjWs_two] at h
      obtain ⟨hpair, hrest⟩ := Bool.and_eq_true_iff.mp h
      have h3 : noAdjWs (y :: ys) = true := ih v hrest
      rw [noAdjWs_two, hpair, h3]
      rfl

theorem noAdjWs_false_of_pair : ∀ (u : List Char) (a b : Char) (v : List Char),
    isSpaceChar a = true → isSpaceChar b = true →
    noAdjWs (u ++ a :: b :: v) = false := by
  intro u
  induction u with
  | nil =>
    intro a b v ha hb
    rw [List.nil_append, noAdjWs_two, ha, hb]
    rfl
  | cons x xs ih =>
    intro a b v ha hb
    have h2 : noAdjWs (xs ++ a :: b :: v) = false := ih a b v ha hb
    cases hxs : xs ++ a :: b :: v with
    | nil => simp at hxs
    | cons r rs =>
      have h0 : (x :: xs) ++ a :: b :: v = x :: r :: rs := by
        rw [List.cons_append, hxs]
      rw [h0, noAdjWs_two]
      rw [hxs] at h2
      rw [h2]
      simp

theorem noAdjWs_dropWhile (p : Char → Bool) :
    ∀ l : List Char, noAdjWs l = true → noAdjWs (l.dropWhile p) = true := by
  intro l
  induction l with
  | nil => intro _; rfl
  | cons c cs ih =>
    intro h
    by_cases hc : p c
    · rw [List.dropWhile_cons_of_pos hc]
      exact ih (noAdjWs_tail c cs h)
    · rw [List.dropWhile_cons_of_neg hc]
      exact h

theorem stripWs_noAdj (l : List Char) (h : noAdjWs l = true) :
    noAdjWs (stripWs l) = true := by
  obtain ⟨u, hu⟩ := List.dropWhile_suffix (l := l) isSpaceChar
  obtain ⟨w, hw⟩ := List.dropWhile_suffix (l := (l.dropWhile isSpaceChar).reverse) isSpaceChar
  have hA : l.dropWhile isSpaceChar = stripWs l ++ w.reverse := by
    unfold stripWs
    have h9 := congrArg List.reverse hw
    simp only [List.reverse_append, List.reverse_reverse] at h9
    exact h9.symm
  have h1 : noAdjWs (l.dropWhile isSpaceChar) = true := noAdjWs_dropWhile isSpaceChar l h
  rw [hA] at h1
  exact noAdjWs_of_append_left _ _ h1

/-- A text with two adjacent whitespace characters is changed by
whitespace normalization (`re.sub` of runs followed by `strip`). -/
theorem normalize_ne_of_pair (txt u v : List Char) (a b : Char)
    (ha : isSpaceChar a = true) (hb : isSpaceChar b = true)
    (hsub : txt = u ++ a :: b :: v) :
    stripWs (subWs txt) ≠ txt := by
  intro heq
  have h1 : noAdjWs (stripWs (subWs txt)) = true :=
    stripWs_noAdj _ (subWsAux_noAdj txt false)
  rw [heq, hsub] at h1
  rw [noAdjWs_false_of_pair u a b v ha hb] at h1
  cases h1

/-! ### The endpoint loops -/

theorem foldl_append_eq_map {α β : Type} (f : α → β) :
    ∀ (l : List α) (acc : List β),
      l.foldl (fun results u => results ++ [f u]) acc = acc ++ l.map f := by
  intro l
  induction l with
  | nil => intro acc; simp
  | cons x xs ih =>
    intro acc
    show xs.foldl (fun results u => results ++ [f u]) (acc ++ [f x]) = acc ++ f x :: xs.map f
    rw [ih (acc ++ [f x])]
    simp

/-- The transaction endpoint is the per-unit map: original unit plus
the one additional field. -/
theorem remediate_mb_txns_eq (units : List Unit) :
    remediate_mb_txns units =
      units.map (fun u => ⟨u, mbMetadata (u.code.getD [])⟩) := by
  unfold remediate_mb_txns
  rw [foldl_append_eq_map]
  rfl

/-- The SELECT endpoint is the per-unit map: original unit plus the
one additional field. -/
theorem remediate_array_eq (units : List Unit) :
    remediate_array units =
      units.map (fun u => ⟨u, selMetadata (u.code.getD [])⟩) := by
  unfold remediate_array
  rw [foldl_append_eq_map]
  rfl

/-- Every record of the `selects` list names a watch-listed table. -/
theorem selMetadata_watchlist (txt : List Char) (r : SelRecord) (h : r ∈ selMetadata txt) :
    upperL r.table = "VBRK".toList ∨ upperL r.table = "VBRP".toList := by
  unfold selMetadata at h
  obtain ⟨sel, hsel, hr⟩ := List.mem_map.mp h
  have hf := (List.mem_filter.mp hsel).2
  unfold inWatchList at hf
  rw [← hr]
  unfold mkSelInfo
  simp only [Bool.or_eq_true, decide_eq_true_eq] at hf
  exact hf


/-! ### Claim theorems -/

/-- Claim C1, counterexample: for the SELECT rule the recorded span
(`span(0)`) includes the terminating period while the recorded full
text (`group("full")`) excludes it, so the substring of the code at
the recorded span differs from the recorded text on the concrete input
`SELECT * FROM VBRK INTO lw.`. -/
theorem claim_C1_counterexample :
    (find_selects ("SELECT * FROM VBRK INTO lw.".toList)).map
        (fun m => (extract ("SELECT * FROM VBRK INTO lw.".toList) m.spanStart m.spanEnd, m.text)) =
      [("SELECT * FROM VBRK INTO lw.".toList, "SELECT * FROM VBRK INTO lw".toList)] ∧
    "SELECT * FROM VBRK INTO lw.".toList ≠ "SELECT * FROM VBRK INTO lw".toList := by
  exact ⟨rfl, by decide⟩

/-- Claim C1, amended: for the transaction rule the substring of the
code at the recorded span equals the recorded full text exactly; for
the SELECT rule the substring at the recorded span equals the recorded
full text followed by the terminating period. -/
theorem claim_C1_amended (txt : List Char) :
    (∀ m ∈ find_mb_txn_usage txt, extract txt m.spanStart m.spanEnd = m.full) ∧
    (∀ m ∈ find_selects txt, extract txt m.spanStart m.spanEnd = m.text ++ ['.']) :=
  ⟨fun m hm => find_mb_extract txt m hm, fun m hm => find_selects_extract txt m hm⟩

/-- Claim C1, witness: the amended statement evaluated on concrete
matches of both rules. -/
theorem claim_C1_amended_witness :
    extract ("SUBMIT MB11.".toList)
      (TxnUsage.mk "SUBMIT MB11.".toList "SUBMIT".toList "MB11".toList
        "SUBMIT MIGO.".toList 0 12).spanStart
      (TxnUsage.mk "SUBMIT MB11.".toList "SUBMIT".toList "MB11".toList
        "SUBMIT MIGO.".toList 0 12).spanEnd =
      "SUBMIT MB11.".toList ∧
    extract ("SELECT * FROM VBRK INTO lw.".toList)
      (SelMatch.mk "SELECT * FROM VBRK INTO lw".toList "VBRK".toList "wa".toList
        "lw".toList 0 27).spanStart
      (SelMatch.mk "SELECT * FROM VBRK INTO lw".toList "VBRK".toList "wa".toList
        "lw".toList 0 27).spanEnd =
      "SELECT * FROM VBRK INTO lw".toList ++ ['.'] := by
  constructor
  · exact (claim_C1_amended ("SUBMIT MB11.".toList)).1 _ (by decide)
  · exact (claim_C1_amended ("SELECT * FROM VBRK INTO lw.".toList)).2 _ (by decide)

/-- Claim C2, counterexample: the transaction pattern's terminator is
optional (`\s*\.?`), so the unterminated input `SUBMIT MB11` still
produces a match, and its matched text does not end with a period. -/
theorem claim_C2_counterexample :
    find_mb_txn_usage ("SUBMIT MB11".toList) =
      [TxnUsage.mk "SUBMIT MB11".toList "SUBMIT".toList "MB11".toList
        "SUBMIT MIGO.".toList 0 11] ∧
    ("SUBMIT MB11".toList).getLast? ≠ some '.' := by
  exact ⟨rfl, by decide⟩

/-- Claim C2, amended: every SELECT-rule match extends up to and
including the literal period terminator (the consumed span ends with
the period); for the transaction rule the terminator is optional: it
is included when present, and a statement without a terminator still
matches, its text ending without a period. -/
theorem claim_C2_amended (txt : List Char) :
    (∀ m ∈ find_selects txt, ∃ pre, extract txt m.spanStart m.spanEnd = pre ++ ['.']) ∧
    (find_mb_txn_usage ("SUBMIT MB11.".toList)).map (fun m => m.full) =
      ["SUBMIT MB11.".toList] ∧
    (find_mb_txn_usage ("SUBMIT MB11".toList)).map (fun m => m.full) =
      ["SUBMIT MB11".toList] :=
  ⟨fun m hm => ⟨m.text, find_selects_extract txt m hm⟩, rfl, rfl⟩

/-- Claim C2, witness: the amended statement evaluated on a concrete
SELECT match. -/
theorem claim_C2_amended_witness :
    ∃ pre, extract ("SELECT * FROM VBRK INTO lw.".toList)
      (SelMatch.mk "SELECT * FROM VBRK INTO lw".toList "VBRK".toList "wa".toList
        "lw".toList 0 27).spanStart
      (SelMatch.mk "SELECT * FROM VBRK INTO lw".toList "VBRK".toList "wa".toList
        "lw".toList 0 27).spanEnd = pre ++ ['.'] :=
  (claim_C2_amended ("SELECT * FROM VBRK INTO lw.".toList)).1 _ (by decide)

/-- Claim C3: for a watch-listed table, a statement without the DRAFT
filter and with a WHERE keyword gets the condition spliced in
immediately after the end of the first WHERE occurrence (a
case-variant of WHERE ends exactly at the insertion offset), conjoined
with AND, with the untouched original text on both sides; and the
concrete scenario `SELECT a, b FROM VBRP WHERE id = 1 INTO @ls_vbrp.`
produces the suggested statement with the condition right after WHERE
and the original predicate preserved. -/
theorem claim_C3 (stmt table : List Char) (e : Nat)
    (hw : upperL table = "VBRK".toList ∨ upperL table = "VBRP".toList)
    (hnd : searchDraft (upperL table ++ "-DRAFT".toList) stmt = false)
    (hwh : firstWhereEnd stmt = some e) :
    (∃ j x r2, e = j + 5 ∧ stmt.drop j = x ++ r2 ∧ upperL x = "WHERE".toList) ∧
    ensure_draft_filter stmt table =
      stmt.take e ++ (' ' :: (upperL table ++ "-DRAFT = SPACE AND".toList)) ++ stmt.drop e ∧
    selMetadata ("SELECT a, b FROM VBRP WHERE id = 1 INTO @ls_vbrp.".toList) =
      [SelRecord.mk "VBRP".toList "wa".toList "@ls_vbrp".toList 0 49 [] false none
        (some ("SELECT a, b FROM VBRP WHERE VBRP-DRAFT = SPACE AND id = 1 INTO @ls_vbrp".toList))] := by
  refine ⟨?_, ensure_draft_filter_where stmt table e hw hnd hwh, rfl⟩
  obtain ⟨j, x, r2, hj, _, hd, hx⟩ := firstWordEnd_sound "WHERE".toList stmt none 0 e hwh
  refine ⟨j, x, r2, by simpa using hj, by simpa using hd, ?_⟩
  rw [hx]
  decide

/-- Claim C3, witness: the insertion property evaluated on the
concrete statement `A WHERE B INTO x` with table `VBRP`. -/
theorem claim_C3_witness :
    ensure_draft_filter ("A WHERE B INTO x".toList) ("VBRP".toList) =
      ("A WHERE B INTO x".toList).take 7 ++
        (' ' :: (upperL "VBRP".toList ++ "-DRAFT = SPACE AND".toList)) ++
        ("A WHERE B INTO x".toList).drop 7 :=
  (claim_C3 ("A WHERE B INTO x".toList) ("VBRP".toList) 7 (by decide) (by decide)
    (by decide)).2.1

/-- Claim C4: the suggestion synthesizer is idempotent: for a
watch-listed table, a statement that already contains the table's
DRAFT literal (in any casing) followed by a space and an equals sign
is returned unchanged by `ensure_draft_filter`, so re-applying the
synthesizer to its own output never inserts a second condition. -/
theorem claim_C4 (stmt table l a r : List Char)
    (hw : upperL table = "VBRK".toList ∨ upperL table = "VBRP".toList)
    (hsub : stmt = l ++ (a ++ ' ' :: '=' :: r))
    (ha : upperL a = upperL (table ++ "-DRAFT".toList)) :
    ensure_draft_filter stmt table = stmt :=
  ensure_draft_filter_of_contains stmt table l a r hw hsub ha

/-- Claim C4, witness: a mixed-casing DRAFT filter is recognized and
the statement is left unchanged. -/
theorem claim_C4_witness :
    ensure_draft_filter ("S vBrK-dRaFt = SPACE".toList) ("vbrk".toList) =
      "S vBrK-dRaFt = SPACE".toList :=
  claim_C4 ("S vBrK-dRaFt = SPACE".toList) ("vbrk".toList) ("S ".toList)
    ("vBrK-dRaFt".toList) (" SPACE".toList) (by decide) (by decide) (by decide)

/-- Claim C5: every record of the SELECT endpoint's `selects` list
names a watch-listed table (case-insensitively), and a SELECT over a
table outside the watch-list (FROM MARA) produces zero records, also
through the endpoint. -/
theorem claim_C5 (units : List Unit) (o : SelOutput) (r : SelRecord)
    (ho : o ∈ remediate_array units) (hr : r ∈ o.selects) :
    (upperL r.table = "VBRK".toList ∨ upperL r.table = "VBRP".toList) ∧
    selMetadata ("SELECT * FROM MARA INTO TABLE lt_mara.".toList) = [] ∧
    remediate_array
        [Unit.mk "P".toList "I".toList "PROG".toList none none none none
          (some ("SELECT * FROM MARA INTO TABLE lt_mara.".toList))] =
      [SelOutput.mk
        (Unit.mk "P".toList "I".toList "PROG".toList none none none none
          (some ("SELECT * FROM MARA INTO TABLE lt_mara.".toList))) []] := by
  refine ⟨?_, rfl, rfl⟩
  rw [remediate_array_eq] at ho
  obtain ⟨u, _, hu⟩ := List.mem_map.mp ho
  rw [← hu] at hr
  exact selMetadata_watchlist (u.code.getD []) r hr

/-- Claim C5, witness: the watch-list property evaluated on a concrete
run of the endpoint. -/
theorem claim_C5_witness :
    upperL ("VBRP".toList) = "VBRK".toList ∨ upperL ("VBRP".toList) = "VBRP".toList := by
  refine (claim_C5
    [Unit.mk "P".toList "I".toList "PROG".toList none none none none
      (some ("SELECT a, b FROM VBRP WHERE id = 1 INTO @ls_vbrp.".toList))]
    (SelOutput.mk
      (Unit.mk "P".toList "I".toList "PROG".toList none none none none
        (some ("SELECT a, b FROM VBRP WHERE id = 1 INTO @ls_vbrp.".toList)))
      [SelRecord.mk "VBRP".toList "wa".toList "@ls_vbrp".toList 0 49 [] false none
        (some ("SELECT a, b FROM VBRP WHERE VBRP-DRAFT = SPACE AND id = 1 INTO @ls_vbrp".toList))])
    (SelRecord.mk "VBRP".toList "wa".toList "@ls_vbrp".toList 0 49 [] false none
      (some ("SELECT a, b FROM VBRP WHERE VBRP-DRAFT = SPACE AND id = 1 INTO @ls_vbrp".toList)))
    (by decide) (by decide)).1

/-- Claim C6: the suggested replacement of the transaction rule
depends only on the statement's opening verb, never on the matched
code: it is one of the two canonical texts, every reported occurrence
carries `suggest_replacement` of its captured verb, and the two
concrete scenarios produce one match each with code MB01 resp. MB11
and the canonical suggestion. -/
theorem claim_C6 (txt : List Char) (m : TxnUsage) (hm : m ∈ find_mb_txn_usage txt) :
    (∀ stmt : List Char, suggest_replacement stmt = "SUBMIT MIGO.".toList ∨
      suggest_replacement stmt =
        "CALL TRANSACTION ".toList ++ [sq] ++ "MIGO".toList ++ [sq, '.']) ∧
    m.suggested_statement = suggest_replacement m.stmt ∧
    find_mb_txn_usage ("CALL TRANSACTION ".toList ++ [sq] ++ "MB01".toList ++ [sq, '.']) =
      [TxnUsage.mk ("CALL TRANSACTION ".toList ++ [sq] ++ "MB01".toList ++ [sq, '.'])
        "CALL TRANSACTION".toList "MB01".toList
        ("CALL TRANSACTION ".toList ++ [sq] ++ "MIGO".toList ++ [sq, '.']) 0 24] ∧
    find_mb_txn_usage ("SUBMIT MB11.".toList) =
      [TxnUsage.mk "SUBMIT MB11.".toList "SUBMIT".toList "MB11".toList
        "SUBMIT MIGO.".toList 0 12] := by
  refine ⟨?_, ?_, by decide, rfl⟩
  · intro stmt
    unfold suggest_replacement
    by_cases h : "SUBMIT".toList.isPrefixOf (upperL stmt)
    · rw [if_pos h]
      left
      rfl
    · rw [if_neg h]
      right
      rfl
  · obtain ⟨i, _, hmi⟩ := mem_finditer _ _ _ _ _ _ hm
    exact (matchTxnAt_sound txt i m hmi).2.2.2.1

/-- Claim C6, witness: evaluated on the concrete match of
`SUBMIT MB11.`. -/
theorem claim_C6_witness :
    (TxnUsage.mk "SUBMIT MB11.".toList "SUBMIT".toList "MB11".toList
      "SUBMIT MIGO.".toList 0 12).suggested_statement =
      suggest_replacement (TxnUsage.mk "SUBMIT MB11.".toList "SUBMIT".toList
        "MB11".toList "SUBMIT MIGO.".toList 0 12).stmt :=
  (claim_C6 ("SUBMIT MB11.".toList) _ (by decide)).2.1

/-- Claim C7: for pairwise non-overlapping in-bounds spans (given in
ascending order), `apply_span_replacements` — which sorts by span
start descending and splices rightmost-first — returns the text with
each span's substring replaced by its paired replacement. -/
theorem claim_C7 (txt : List Char) (repls : List ((Nat × Nat) × List Char))
    (h : SpansOK txt 0 repls) :
    apply_span_replacements txt repls = renderRepls txt 0 repls :=
  apply_span_replacements_eq txt repls h

/-- Claim C7, witness: two concrete replacements on `abcdef`. -/
theorem claim_C7_witness :
    apply_span_replacements ("abcdef".toList)
        [((1, 2), "XY".toList), ((4, 5), "Z".toList)] =
      renderRepls ("abcdef".toList) 0 [((1, 2), "XY".toList), ((4, 5), "Z".toList)] ∧
    renderRepls ("abcdef".toList) 0 [((1, 2), "XY".toList), ((4, 5), "Z".toList)] =
      "aXYcdZf".toList := by
  constructor
  · exact claim_C7 ("abcdef".toList) [((1, 2), "XY".toList), ((4, 5), "Z".toList)]
      ⟨by omega, by omega, by omega, by omega,
        by show (5 : Nat) ≤ ("abcdef".toList).length; decide⟩
  · rfl

/-- Claim C8: each endpoint maps its input list one-to-one, in order:
the output at index `i` is exactly the input unit at `i` with all its
fields unchanged plus the single rule-specific findings field, and the
findings are listed in strictly increasing span order. -/
theorem claim_C8 (units : List Unit) (i : Nat) :
    (remediate_mb_txns units).length = units.length ∧
    (remediate_array units).length = units.length ∧
    (remediate_mb_txns units)[i]? =
      (units[i]?).map (fun u => MbOutput.mk u (mbMetadata (u.code.getD []))) ∧
    (remediate_array units)[i]? =
      (units[i]?).map (fun u => SelOutput.mk u (selMetadata (u.code.getD []))) ∧
    (∀ o ∈ remediate_mb_txns units,
      o.mb_txn_usage.Pairwise (fun a b => a.start_char_in_unit < b.start_char_in_unit)) ∧
    (∀ o ∈ remediate_array units,
      o.selects.Pairwise (fun a b => a.start_char_in_unit < b.start_char_in_unit)) := by
  refine ⟨?_, ?_, ?_, ?_, ?_, ?_⟩
  · rw [remediate_mb_txns_eq, List.length_map]
  · rw [remediate_array_eq, List.length_map]
  · rw [remediate_mb_txns_eq, List.getElem?_map]
  · rw [remediate_array_eq, List.getElem?_map]
  · intro o ho
    rw [remediate_mb_txns_eq] at ho
    obtain ⟨u, _, hu⟩ := List.mem_map.mp ho
    rw [← hu]
    refine List.Pairwise.map _ ?_ (find_mb_pairwise (u.code.getD []))
    intro a b hab
    exact hab
  · intro o ho
    rw [remediate_array_eq] at ho
    obtain ⟨u, _, hu⟩ := List.mem_map.mp ho
    rw [← hu]
    refine List.Pairwise.map _ ?_ ((find_selects_pairwise (u.code.getD [])).filter _)
    intro a b hab
    exact hab

/-- Claim C8, witness: the frame property evaluated on a concrete
one-unit input. -/
theorem claim_C8_witness :
    (remediate_mb_txns
      [Unit.mk "P".toList "I".toList "PROG".toList none none none none
        (some ("SUBMIT MB11.".toList))]).length = 1 := by
  have h := (claim_C8
    [Unit.mk "P".toList "I".toList "PROG".toList none none none none
      (some ("SUBMIT MB11.".toList))] 0).1
  simpa using h

/-- Claim C9: the transaction pattern has no word boundary after the
code literal: on `SUBMIT MB011.` the matcher reports one finding whose
captured code is the prefix `MB01` and whose span `[0, 11)` ends
before the rest of the identifier (the text has 13 characters). -/
theorem claim_C9 :
    find_mb_txn_usage ("SUBMIT MB011.".toList) =
      [TxnUsage.mk "SUBMIT MB01".toList "SUBMIT".toList "MB01".toList
        "SUBMIT MIGO.".toList 0 11] ∧
    ("SUBMIT MB011.".toList).length = 13 :=
  ⟨rfl, rfl⟩

/-- Claim C10: a reported SELECT occurrence's `suggested_statement`
is null exactly when the built (whitespace-normalized) suggestion
equals the raw matched text; consequently a qualifying statement that
already carries the DRAFT filter but contains two adjacent whitespace
characters still receives a non-null suggestion equal to its
whitespace-normalized original text. -/
theorem claim_C10 (txt : List Char) (sel : SelMatch) (hm : sel ∈ find_selects txt)
    (hwl : upperL sel.table = "VBRK".toList ∨ upperL sel.table = "VBRP".toList) :
    ((mkSelInfo sel).suggested_statement = none ↔
      build_replacement_stmt sel.text sel.table = sel.text) ∧
    (∀ (u v : List Char) (a b : Char), isSpaceChar a = true → isSpaceChar b = true →
      sel.text = u ++ a :: b :: v →
      searchDraft (upperL sel.table ++ "-DRAFT".toList) sel.text = true →
      (mkSelInfo sel).suggested_statement = some (stripWs (subWs sel.text))) := by
  constructor
  · unfold mkSelInfo
    by_cases h : build_replacement_stmt sel.text sel.table = sel.text
    · simp [h]
    · simp [h]
  · intro u v a b ha hb hsub hsearch
    have hens : ensure_draft_filter sel.text sel.table = sel.text :=
      ensure_draft_filter_of_search sel.text sel.table hwl hsearch
    have hbuild : build_replacement_stmt sel.text sel.table = stripWs (subWs sel.text) := by
      unfold build_replacement_stmt
      rw [hens]
    have hne : build_replacement_stmt sel.text sel.table ≠ sel.text := by
      rw [hbuild]
      exact normalize_ne_of_pair sel.text u v a b ha hb hsub
    unfold mkSelInfo
    dsimp only
    rw [if_neg hne, hbuild]

/-- Claim C10, witness: a SELECT over VBRK that already carries the
DRAFT filter and contains a double space still gets a non-null,
normalized suggestion. -/
theorem claim_C10_witness :
    (mkSelInfo (SelMatch.mk
        "SELECT *  FROM VBRK WHERE VBRK-DRAFT = SPACE INTO x".toList
        "VBRK".toList "wa".toList "x".toList 0 52)).suggested_statement =
      some (stripWs (subWs
        "SELECT *  FROM VBRK WHERE VBRK-DRAFT = SPACE INTO x".toList)) :=
  (claim_C10 ("SELECT *  FROM VBRK WHERE VBRK-DRAFT = SPACE INTO x.".toList)
      (SelMatch.mk "SELECT *  FROM VBRK WHERE VBRK-DRAFT = SPACE INTO x".toList
        "VBRK".toList "wa".toList "x".toList 0 52)
      (by decide) (by decide)).2
    ("SELECT *".toList)
    ("FROM VBRK WHERE VBRK-DRAFT = SPACE INTO x".toList) ' ' ' '
    (by decide) (by decide) (by decide) (by decide)


end Remediation
